import Mathlib

/-!
Verification of the randomness-extraction parameter engine of qiskit_rng.

The definitions below are shallow embeddings of the functions in
qiskit_rng/utils.py.  Python integers are modelled by Nat or Int, Python
floats by Real numbers with exact arithmetic, fallible code by Except.
Runtime errors that the Python interpreter would raise (ZeroDivisionError,
IndexError, ValueError) are modelled by an explicit error type.
-/

/-- The kinds of runtime errors relevant to utils.py: the unchecked
ZeroDivisionError and IndexError that the interpreter raises, and the
ValueError raised explicitly by hayashi_parameters. -/
inductive PyError where
  | zeroDivisionError
  | indexError
  | valueError
  deriving DecidableEq

deriving instance DecidableEq for Except

/-! ## StatisticsEngine: bell_value -/

/-- One iteration of the loop body of bell_value: whether index data
(w, r) counts as a losing event.  Mirrors the if/elif pair in the source:
wsr_sum == 1 with odd raw_bits_sum, or wsr_sum == 3 with even raw_bits_sum. -/
def losing_step (w r : List ℕ) : Bool :=
  (w.sum == 1 && r.sum % 2 == 1) || (w.sum == 3 && r.sum % 2 == 0)

/-- Embedding of bell_value from utils.py.  The Python loop indexes
raw_bits[i] for i in range(len(wsr)), so it raises IndexError as soon as
raw_bits is shorter than wsr; the final division losing_prob / len(wsr)
raises ZeroDivisionError when wsr is empty.  Probabilities are modelled
exactly in the rationals. -/
def bell_value (wsr raw_bits : List (List ℕ)) : Except PyError (ℚ × ℚ × ℚ) :=
  if wsr.length ≤ raw_bits.length then
    if wsr.length = 0 then .error .zeroDivisionError
    else
      let losing_count : ℕ :=
        (List.range wsr.length).countP
          (fun i => losing_step (wsr.getD i []) (raw_bits.getD i []))
      let losing_prob : ℚ := (losing_count : ℚ) / (wsr.length : ℚ)
      .ok (losing_prob, 1 - losing_prob, 4 - 16 * losing_prob)
  else .error .indexError

/-- The losing probability as the specification words it: the number of
indices i with either sum wsr[i] = 1 and sum raw_bits[i] odd, or
sum wsr[i] = 3 and sum raw_bits[i] even, divided by the length of wsr. -/
def losing_probability_spec (wsr raw_bits : List (List ℕ)) : ℚ :=
  (((List.range wsr.length).countP fun i =>
      decide (((wsr.getD i []).sum = 1 ∧ Odd (raw_bits.getD i []).sum) ∨
              ((wsr.getD i []).sum = 3 ∧ Even (raw_bits.getD i []).sum))) : ℚ)
    / (wsr.length : ℚ)

/-! ## EntropyEstimator: bt_adjusting, guessing_probability, h_mins -/

/-- Embedding of bt_adjusting from utils.py.  The Python default argument
delta_finite_stat = 0 is passed explicitly by callers here. -/
noncomputable def bt_adjusting (bt_value epsilon delta_finite_stat : ℝ) : ℝ :=
  (bt_value + delta_finite_stat) / (8 * ((0.5 - epsilon) ^ 3))

/-- Embedding of guessing_probability from utils.py.  The source assigns
the first two (complementary) branches and then unconditionally overwrites
the result with 1 when bt_adjusted >= 1/8, so the saturation branch wins. -/
noncomputable def guessing_probability (bt_adjusted : ℝ) : ℝ :=
  let low : ℝ :=
    if bt_adjusted ≥ 1 / 16 then 0.5 + 4 * bt_adjusted
    else 0.25 + 2 * bt_adjusted +
      Real.sqrt 3 * Real.sqrt (bt_adjusted - 4 * (bt_adjusted ^ 2))
  if bt_adjusted ≥ 1 / 8 then 1 else low

/-- Embedding of h_mins from utils.py: epsilon_sv = 2^(-rate_sv) - 1/2,
h_min_bt = -num_bits / 2 * log2 (guessing_probability (bt_adjusting ...)),
and the returned rate_bt = h_min_bt / num_bits. -/
noncomputable def h_mins (bt_value : ℝ) (num_bits : ℕ) (rate_sv : ℝ) : ℝ :=
  let epsilon_sv : ℝ := (2 : ℝ) ^ (-rate_sv) - 1 / 2
  let h_min_bt : ℝ := -(num_bits : ℝ) / 2 *
    Real.logb 2 (guessing_probability (bt_adjusting bt_value epsilon_sv 0))
  h_min_bt / (num_bits : ℝ)

/-! ## ExtractorSizer: dodis_output_size, hayashi_parameters -/

/-- Embedding of dodis_output_size from utils.py.  math.floor is the floor
toward negative infinity, Int.floor; the function returns the floored value
itself and raises nothing. -/
noncomputable def dodis_output_size (num_bits : ℕ)
    (rate_bt rate_sv epsilon_dodis : ℝ) (q_proof : Bool) : ℤ :=
  if !q_proof then
    ⌊(num_bits : ℝ) * (rate_bt + rate_sv - 1) + 1 -
      2 * Real.logb 2 (1 / epsilon_dodis)⌋
  else
    ⌊1 / 5 * ((num_bits : ℝ) * (rate_bt + rate_sv - 1) + 1 -
      8 * Real.logb 2 (1 / epsilon_dodis) - 8 * Real.logb 2 (Real.sqrt 3 / 2))⌋

/-- Embedding of hayashi_parameters from utils.py: c = c_max - c_penalty;
ValueError when c < 2, otherwise the pair
(c, sqrt (c - 1) * 2 ^ (input_size / 2 * (c * (1 - rate_sv) - 1))). -/
noncomputable def hayashi_parameters (input_size : ℕ) (rate_sv : ℝ)
    (c_max c_penalty : ℤ) : Except PyError (ℤ × ℝ) :=
  let c : ℤ := c_max - c_penalty
  if c < 2 then .error .valueError
  else .ok (c, Real.sqrt ((c : ℝ) - 1) *
    (2 : ℝ) ^ ((input_size : ℝ) / 2 * ((c : ℝ) * (1 - rate_sv) - 1)))

/-! ## BitCodec: bitarray_to_bytes, bytes_to_bitarray -/

/-- Embedding of bitarray_to_bytes from utils.py.  Bytes are modelled as a
list of naturals (each below 256 when the input is a bit vector).  The
imperative loop int_array[i >> 3] |= bitarray[i] << (i & 7) becomes a fold
over the index range. -/
def bitarray_to_bytes (bitarray : List ℕ) : List ℕ :=
  let n_bits := bitarray.length
  let n_bytes := (n_bits + 7) >>> 3
  (List.range n_bits).foldl
    (fun int_array i =>
      int_array.set (i >>> 3)
        (int_array.getD (i >>> 3) 0 ||| (bitarray.getD i 0 <<< (i &&& 7))))
    (List.replicate n_bytes 0)

/-- Embedding of bytes_to_bitarray from utils.py: bit i of the output is
(the_bytes[i >> 3] >> (i & 7)) & 1. -/
def bytes_to_bitarray (the_bytes : List ℕ) (num_bits : ℕ) : List ℕ :=
  (List.range num_bits).map
    (fun i => (the_bytes.getD (i >>> 3) 0 >>> (i &&& 7)) &&& 1)

/-- The closed form of byte j of the packed buffer after the first m bits
of b have been processed: the base-2 digit sum of the bits whose index
8 * j + k has already been written. -/
def byteSpec (b : List ℕ) (m j : ℕ) : ℕ :=
  (Finset.range 8).sum
    (fun k => (if 8 * j + k < m then b.getD (8 * j + k) 0 else 0) * 2 ^ k)

/-! ## ModulusSelector: prime_check, prime_factors, na_set -/

/-- The integer square root computed by a structural linear search (kept
free of well-founded recursion so that concrete instances reduce inside the
kernel); proved equal to Nat.sqrt below. -/
def sqrt_lin (n : ℕ) : ℕ :=
  (List.range (n + 1)).countP (fun s => decide (s * s ≤ n)) - 1

/-- The value of round(sqrt(num)) computed with exact real arithmetic:
the integer nearest to the square root of num (the tie num = s^2 + s + 1/4
is impossible for integers, so rounding is determined by whether num
exceeds s^2 + s for s the integer square root). -/
def round_sqrt (num : ℕ) : ℕ :=
  if num ≤ sqrt_lin num * sqrt_lin num + sqrt_lin num then sqrt_lin num
  else sqrt_lin num + 1

/-- Embedding of prime_check from utils.py: trial division by every i in
range(2, round(sqrt(num)) + 1). -/
def prime_check (num : ℕ) : Bool :=
  decide (∀ i ∈ Finset.Ico 2 (round_sqrt num + 1), num % i ≠ 0)

/-- The trial-division loop of prime_factors from utils.py, with an explicit
fuel argument bounding the number of iterations (the source loop terminates
because each step divides num or increments i; the fuel is chosen large
enough that the cutoff is never reached, see prime_factors_list_eq).  When
the loop index exceeds round(sqrt(num)) + 1, the remaining cofactor is
appended unless it is 1. -/
def pf_loop : ℕ → ℕ → ℕ → List ℕ
  | 0, num, _ => if num ≠ 1 then [num] else []
  | fuel + 1, num, i =>
    if i ≤ round_sqrt num + 1 then
      if num % i = 0 then i :: pf_loop fuel (num / i) i
      else pf_loop fuel num (i + 1)
    else if num ≠ 1 then [num] else []

/-- Embedding of prime_factors(num, False) from utils.py: the nondecreasing
list of prime factors of num with multiplicity, found by trial division
starting at i = 2. -/
def prime_factors_list (num : ℕ) : List ℕ :=
  pf_loop (num + round_sqrt num + 2) num 2

/-- One step of the run-length grouping: push a new element onto an
existing run-length encoding, merging it into the first run when equal. -/
def run_cons (x : ℕ) : List (ℕ × ℕ) → List (ℕ × ℕ)
  | [] => [(x, 1)]
  | (y, c) :: rest =>
    if x = y then (y, c + 1) :: rest else (x, 1) :: (y, c) :: rest

/-- Run-length encoding of a list, mirroring the grouping loop of
prime_factors(num, True): consecutive equal factors are collected into one
entry carrying the factor and its multiplicity. -/
def run_lengths : List ℕ → List (ℕ × ℕ)
  | [] => []
  | x :: xs => run_cons x (run_lengths xs)

/-- Embedding of prime_factors(num, True) from utils.py: the list of
distinct prime factors paired with the list of their multiplicities. -/
def prime_factors_grouped (num : ℕ) : List ℕ × List ℕ :=
  let rl := run_lengths (prime_factors_list num)
  (rl.map Prod.fst, rl.map Prod.snd)

/-- The acceptance test applied to one candidate in na_set: num_bits + 1
passes prime_check, and for every distinct prime factor p of num_bits the
modular power pow(2, num_bits / p, num_bits + 1) differs from 1. -/
def na_good (m : ℕ) : Bool :=
  prime_check (m + 1) &&
    (prime_factors_grouped m).1.all (fun p => 2 ^ (m / p) % (m + 1) != 1)

/-- The decreasing search of na_set: try the current even candidate, and on
failure retry at m - 2.  The fuel bounds the number of candidates tried;
none is returned when it runs out (the source loop would still be
running). -/
def na_loop : ℕ → ℕ → Option ℕ
  | 0, _ => none
  | fuel + 1, m => if na_good m then some m else na_loop fuel (m - 2)

/-- Embedding of na_set from utils.py: force the input even, then search
downward in steps of 2 for a candidate accepted by na_good.  The fuel
n0 / 2 + 1 covers every candidate from n0 down to 0, and the search is
proved to stop at 2 at the latest for inputs of at least 2. -/
def na_set (num_bits : ℕ) : Option ℕ :=
  let n0 := if num_bits % 2 ≠ 0 then num_bits - 1 else num_bits
  na_loop (n0 / 2 + 1) n0

/-! ## Helper lemmas about bell_value -/

lemma losing_step_eq_decide (w r : List ℕ) :
    losing_step w r =
      decide ((w.sum = 1 ∧ Odd r.sum) ∨ (w.sum = 3 ∧ Even r.sum)) := by
  rw [Bool.eq_iff_iff]
  simp [losing_step, Nat.odd_iff, Nat.even_iff]

lemma bell_value_ok (wsr raw_bits : List (List ℕ))
    (hle : wsr.length ≤ raw_bits.length) (hnz : wsr.length ≠ 0) :
    bell_value wsr raw_bits =
      .ok (losing_probability_spec wsr raw_bits,
        1 - losing_probability_spec wsr raw_bits,
        4 - 16 * losing_probability_spec wsr raw_bits) := by
  rw [bell_value, if_pos hle, if_neg hnz]
  have hc : (List.range wsr.length).countP
        (fun i => losing_step (wsr.getD i []) (raw_bits.getD i [])) =
      (List.range wsr.length).countP (fun i =>
        decide (((wsr.getD i []).sum = 1 ∧ Odd (raw_bits.getD i []).sum) ∨
                ((wsr.getD i []).sum = 3 ∧ Even (raw_bits.getD i []).sum))) :=
    List.countP_congr (fun i _ => by rw [losing_step_eq_decide])
  simp only [hc, losing_probability_spec]

/-! ## Claim theorems -/

/-- C3: for equal-length, non-empty sequences of 3-bit vectors, bell_value
returns (losing_prob, 1 - losing_prob, 4 - 16 * losing_prob) where
losing_prob counts indices whose wsr sum is 1 with odd outcome sum, or 3
with even outcome sum, divided by the length of wsr. -/
theorem bell_value_functional_spec (wsr raw_bits : List (List ℕ))
    (hlen : wsr.length = raw_bits.length) (hne : wsr ≠ [])
    (_hw3 : ∀ v ∈ wsr, v.length = 3) (_hr3 : ∀ v ∈ raw_bits, v.length = 3) :
    bell_value wsr raw_bits =
      .ok (losing_probability_spec wsr raw_bits,
        1 - losing_probability_spec wsr raw_bits,
        4 - 16 * losing_probability_spec wsr raw_bits) :=
  bell_value_ok wsr raw_bits hlen.le
    (by simpa [List.length_eq_zero] using hne)

/-- Witness for C3: the spec example, with losing probability 1/3 and
correlator 4 - 16/3. -/
theorem bell_value_functional_spec_witness :
    bell_value [[1,0,0],[0,1,1],[1,1,0]] [[1,0,0],[0,1,1],[0,0,0]] =
      .ok (1/3, 2/3, 4 - 16/3) ∧
    losing_probability_spec [[1,0,0],[0,1,1],[1,1,0]] [[1,0,0],[0,1,1],[0,0,0]]
      = 1/3 := by
  have hspec : losing_probability_spec [[1,0,0],[0,1,1],[1,1,0]]
      [[1,0,0],[0,1,1],[0,0,0]] = 1/3 := by
    have hq : List.countP (fun i =>
        decide (((([[1,0,0],[0,1,1],[1,1,0]] : List (List ℕ)).getD i []).sum = 1 ∧
            Odd ((([[1,0,0],[0,1,1],[0,0,0]] : List (List ℕ)).getD i []).sum)) ∨
          ((([[1,0,0],[0,1,1],[1,1,0]] : List (List ℕ)).getD i []).sum = 3 ∧
            Even ((([[1,0,0],[0,1,1],[0,0,0]] : List (List ℕ)).getD i []).sum))))
        (List.range ([[1,0,0],[0,1,1],[1,1,0]] : List (List ℕ)).length)
        = 1 := by decide
    rw [losing_probability_spec, hq]
    norm_num
  have h := bell_value_functional_spec [[1,0,0],[0,1,1],[1,1,0]]
    [[1,0,0],[0,1,1],[0,0,0]] rfl (by decide) (by decide) (by decide)
  rw [h, hspec]
  norm_num

/-- C4 counterexample: bell_value does not fail when the two sequences have
different lengths; with raw_bits longer than wsr it silently returns a
result. -/
theorem bell_value_size_counterexample :
    ([[0,0,0]] : List (List ℕ)).length ≠
      ([[0,0,0],[0,0,0]] : List (List ℕ)).length ∧
    bell_value [[0,0,0]] [[0,0,0],[0,0,0]] = .ok (0, 1, 4) := by
  constructor
  · decide
  · have hc : List.countP (fun i =>
        losing_step (([[0,0,0]] : List (List ℕ))[i]?.getD [])
          (([[0,0,0],[0,0,0]] : List (List ℕ))[i]?.getD []))
        (List.range 1) = 0 := by decide
    rw [bell_value]
    norm_num [hc]

/-- C4 amended: bell_value performs no input-size validation.  An empty wsr
gives an unchecked division-by-zero error, a wsr longer than raw_bits gives
an unchecked index error, and a raw_bits longer than wsr is silently
accepted, the extra entries being ignored. -/
theorem bell_value_no_size_check (wsr raw_bits : List (List ℕ)) :
    (wsr = [] → bell_value wsr raw_bits = .error .zeroDivisionError) ∧
    (raw_bits.length < wsr.length →
      bell_value wsr raw_bits = .error .indexError) ∧
    (wsr.length ≤ raw_bits.length →
      bell_value wsr raw_bits = bell_value wsr (raw_bits.take wsr.length)) := by
  refine ⟨fun h => ?_, fun h => ?_, fun h => ?_⟩
  · subst h
    rw [bell_value]
    simp
  · rw [bell_value, if_neg (by omega)]
  · have hlen : (raw_bits.take wsr.length).length = wsr.length := by
      simp [List.length_take]
      omega
    have hc : (List.range wsr.length).countP
          (fun i => losing_step (wsr.getD i []) (raw_bits.getD i [])) =
        (List.range wsr.length).countP
          (fun i => losing_step (wsr.getD i [])
            ((raw_bits.take wsr.length).getD i [])) := by
      refine List.countP_congr (fun i hi => ?_)
      have hilt : i < wsr.length := List.mem_range.mp hi
      simp only [List.getD_eq_getElem?_getD, List.getElem?_take_of_lt hilt]
    rw [bell_value, bell_value, hlen, if_pos h, if_pos le_rfl]
    simp only [hc]

/-- Witness for the amended C4: the three behaviours at concrete inputs. -/
theorem bell_value_no_size_check_witness :
    bell_value [] [[0,0,0]] = .error .zeroDivisionError ∧
    bell_value [[0,0,0]] [] = .error .indexError ∧
    bell_value [[0,0,0]] [[0,0,0],[0,0,0]] =
      bell_value [[0,0,0]] (List.take 1 [[0,0,0],[0,0,0]]) :=
  ⟨(bell_value_no_size_check [] [[0,0,0]]).1 rfl,
   (bell_value_no_size_check [[0,0,0]] []).2.1 (by decide),
   (bell_value_no_size_check [[0,0,0]] [[0,0,0],[0,0,0]]).2.2 (by decide)⟩

/-- C5 counterexample: a losing probability of 1 is attainable, and then
the correlator returned by bell_value is -12, outside [-4, 4]. -/
theorem bell_value_correlator_counterexample :
    bell_value [[1,0,0]] [[1,0,0]] = .ok (1, 0, -12) ∧
    ¬ (-4 : ℚ) ≤ -12 := by
  constructor
  · have hc : List.countP (fun i =>
        losing_step (([[1,0,0]] : List (List ℕ))[i]?.getD [])
          (([[1,0,0]] : List (List ℕ))[i]?.getD []))
        (List.range 1) = 1 := by decide
    rw [bell_value]
    norm_num [hc]
  · norm_num

/-- C5 amended: the losing probability returned by bell_value always lies
in [0, 1], the correlator equals 4 - 16 times it, and hence the correlator
lies in [-12, 4] (the interval [-4, 4] is exceeded whenever the losing
probability is above 1/2). -/
theorem bell_value_correlator_bounds (wsr raw_bits : List (List ℕ))
    (lp wp c : ℚ) (h : bell_value wsr raw_bits = .ok (lp, wp, c)) :
    0 ≤ lp ∧ lp ≤ 1 ∧ c = 4 - 16 * lp ∧ -12 ≤ c ∧ c ≤ 4 := by
  rw [bell_value] at h
  split_ifs at h with h1 h2
  simp only [Except.ok.injEq, Prod.mk.injEq] at h
  obtain ⟨hlp, -, hc⟩ := h
  subst hlp
  subst hc
  have hcount : ((List.range wsr.length).countP
      (fun i => losing_step (wsr.getD i []) (raw_bits.getD i [])) : ℚ) ≤
      (wsr.length : ℚ) := by
    have hn := List.countP_le_length
      (p := fun i => losing_step (wsr.getD i []) (raw_bits.getD i []))
      (l := List.range wsr.length)
    rw [List.length_range] at hn
    exact_mod_cast hn
  have hlen : (0 : ℚ) < (wsr.length : ℚ) := by
    exact_mod_cast Nat.pos_of_ne_zero h2
  have h0 : (0 : ℚ) ≤ ((List.range wsr.length).countP
      (fun i => losing_step (wsr.getD i []) (raw_bits.getD i [])) : ℚ) /
      (wsr.length : ℚ) := by positivity
  have hone : ((List.range wsr.length).countP
      (fun i => losing_step (wsr.getD i []) (raw_bits.getD i [])) : ℚ) /
      (wsr.length : ℚ) ≤ 1 := (div_le_one hlen).mpr hcount
  exact ⟨h0, hone, rfl, by linarith, by linarith⟩

/-- Witness for the amended C5: applied at a concrete accepted input. -/
theorem bell_value_correlator_bounds_witness :
    (0 : ℚ) ≤ 0 ∧ (0 : ℚ) ≤ 1 ∧ (4 : ℚ) = 4 - 16 * 0 ∧
      (-12 : ℚ) ≤ 4 ∧ (4 : ℚ) ≤ 4 := by
  have hc : List.countP (fun i =>
      losing_step (([[0,0,0]] : List (List ℕ))[i]?.getD [])
        (([[0,0,0]] : List (List ℕ))[i]?.getD []))
      (List.range 1) = 0 := by decide
  refine bell_value_correlator_bounds [[0,0,0]] [[0,0,0]] 0 1 4 ?_
  rw [bell_value]
  norm_num [hc]

/-- C2: guessing_probability is the stated piecewise function, with the
saturation branch at 1/8 inclusive overriding the lower branches. -/
theorem guessing_probability_piecewise (x : ℝ) :
    (1/8 ≤ x → guessing_probability x = 1) ∧
    (1/16 ≤ x → x < 1/8 → guessing_probability x = 0.5 + 4 * x) ∧
    (x < 1/16 → 0 ≤ x - 4 * x^2 →
      guessing_probability x =
        0.25 + 2 * x + Real.sqrt 3 * Real.sqrt (x - 4 * x^2)) := by
  refine ⟨fun h1 => ?_, fun h1 h2 => ?_, fun h1 h2 => ?_⟩ <;>
    simp only [guessing_probability] <;> split_ifs with ha hb <;>
    first
    | rfl
    | linarith [ha, hb]
    | linarith [ha]

/-- Witness for C2: the three branches at 1/4, 1/16 and 0. -/
theorem guessing_probability_piecewise_witness :
    guessing_probability (1/4) = 1 ∧
    guessing_probability (1/16) = 0.5 + 4 * (1/16) ∧
    guessing_probability 0 =
      0.25 + 2 * 0 + Real.sqrt 3 * Real.sqrt (0 - 4 * 0^2) :=
  ⟨(guessing_probability_piecewise (1/4)).1 (by norm_num),
   (guessing_probability_piecewise (1/16)).2.1 (by norm_num) (by norm_num),
   (guessing_probability_piecewise 0).2.2 (by norm_num) (by norm_num)⟩

/-- C7: hayashi_parameters raises ValueError exactly when
c = c_max - c_penalty is below 2, and otherwise returns the pair
(c, sqrt (c - 1) * 2 ^ (input_size / 2 * (c * (1 - rate_sv) - 1))). -/
theorem hayashi_parameters_spec (input_size : ℕ) (rate_sv : ℝ)
    (c_max c_penalty : ℤ) :
    (c_max - c_penalty < 2 →
      hayashi_parameters input_size rate_sv c_max c_penalty =
        .error .valueError) ∧
    (2 ≤ c_max - c_penalty →
      hayashi_parameters input_size rate_sv c_max c_penalty =
        .ok (c_max - c_penalty,
          Real.sqrt (((c_max - c_penalty : ℤ) : ℝ) - 1) *
            (2 : ℝ) ^ ((input_size : ℝ) / 2 *
              (((c_max - c_penalty : ℤ) : ℝ) * (1 - rate_sv) - 1)))) := by
  constructor
  · intro h
    rw [hayashi_parameters]
    simp only [if_pos h]
  · intro h
    rw [hayashi_parameters]
    simp only [if_neg (not_lt.mpr h)]

/-- Witness for C7: the spec example c_max = 1, c_penalty = 2 raises, and
c_max = 4, c_penalty = 2 succeeds. -/
theorem hayashi_parameters_spec_witness :
    hayashi_parameters 4 (1/2) 1 2 = .error .valueError ∧
    hayashi_parameters 4 (1/2) 4 2 =
      .ok (4 - 2, Real.sqrt (((4 - 2 : ℤ) : ℝ) - 1) *
        (2 : ℝ) ^ (((4 : ℕ) : ℝ) / 2 *
          (((4 - 2 : ℤ) : ℝ) * (1 - 1/2) - 1))) :=
  ⟨(hayashi_parameters_spec 4 (1/2) 1 2).1 (by norm_num),
   (hayashi_parameters_spec 4 (1/2) 4 2).2 (by norm_num)⟩

/-- C6 counterexample: with num_bits = 0, rate_bt = rate_sv = 0 and
epsilon_dodis = 1/2 the computed output size is the negative number -1,
and dodis_output_size returns that plain integer to the caller instead of
raising an infeasible-configuration error. -/
theorem dodis_output_size_counterexample :
    dodis_output_size 0 0 0 (1/2) false = -1 := by
  rw [dodis_output_size]
  have h2 : Real.logb 2 (1 / (1/2 : ℝ)) = 1 := by
    norm_num
  norm_num [h2]

/-- C6 amended: whenever the computed Dodis output size is negative,
dodis_output_size returns exactly that negative floored value to the
caller; nothing is clamped to zero and no error is raised (in either the
classical or the q_proof variant). -/
theorem dodis_output_size_negative_passthrough (num_bits : ℕ)
    (rate_bt rate_sv epsilon_dodis : ℝ) :
    ((num_bits : ℝ) * (rate_bt + rate_sv - 1) + 1 -
        2 * Real.logb 2 (1 / epsilon_dodis) < 0 →
      dodis_output_size num_bits rate_bt rate_sv epsilon_dodis false =
        ⌊(num_bits : ℝ) * (rate_bt + rate_sv - 1) + 1 -
          2 * Real.logb 2 (1 / epsilon_dodis)⌋ ∧
      dodis_output_size num_bits rate_bt rate_sv epsilon_dodis false < 0) ∧
    (1 / 5 * ((num_bits : ℝ) * (rate_bt + rate_sv - 1) + 1 -
        8 * Real.logb 2 (1 / epsilon_dodis) -
        8 * Real.logb 2 (Real.sqrt 3 / 2)) < 0 →
      dodis_output_size num_bits rate_bt rate_sv epsilon_dodis true =
        ⌊1 / 5 * ((num_bits : ℝ) * (rate_bt + rate_sv - 1) + 1 -
          8 * Real.logb 2 (1 / epsilon_dodis) -
          8 * Real.logb 2 (Real.sqrt 3 / 2))⌋ ∧
      dodis_output_size num_bits rate_bt rate_sv epsilon_dodis true < 0) := by
  have hfalse : dodis_output_size num_bits rate_bt rate_sv epsilon_dodis false =
      ⌊(num_bits : ℝ) * (rate_bt + rate_sv - 1) + 1 -
        2 * Real.logb 2 (1 / epsilon_dodis)⌋ := by
    rw [dodis_output_size]
    rfl
  have htrue : dodis_output_size num_bits rate_bt rate_sv epsilon_dodis true =
      ⌊1 / 5 * ((num_bits : ℝ) * (rate_bt + rate_sv - 1) + 1 -
        8 * Real.logb 2 (1 / epsilon_dodis) -
        8 * Real.logb 2 (Real.sqrt 3 / 2))⌋ := by
    rw [dodis_output_size]
    rfl
  constructor <;> intro h
  · exact ⟨hfalse, by rw [hfalse]; exact Int.floor_lt.mpr (by exact_mod_cast h)⟩
  · exact ⟨htrue, by rw [htrue]; exact Int.floor_lt.mpr (by exact_mod_cast h)⟩

/-- Witness for the amended C6: the concrete negative configuration. -/
theorem dodis_output_size_negative_passthrough_witness :
    dodis_output_size 0 0 0 (1/2) false =
      ⌊(( 0 : ℕ) : ℝ) * ((0 : ℝ) + 0 - 1) + 1 -
        2 * Real.logb 2 (1 / (1/2 : ℝ))⌋ ∧
    dodis_output_size 0 0 0 (1/2) false < 0 :=
  (dodis_output_size_negative_passthrough 0 0 0 (1/2)).1 (by norm_num)

/-- C10: the value of h_mins does not depend on num_bits, and equals
-(1/2) * log2 (guessing_probability (bt_adjusting bt_value
(2^(-rate_sv) - 1/2) 0)) for every nonzero bit count. -/
theorem h_mins_independent_of_num_bits (bt_value rate_sv : ℝ) (n m : ℕ)
    (hn : n ≠ 0) (hm : m ≠ 0) :
    h_mins bt_value n rate_sv = h_mins bt_value m rate_sv ∧
    h_mins bt_value n rate_sv = -(1/2) * Real.logb 2 (guessing_probability
      (bt_adjusting bt_value ((2 : ℝ) ^ (-rate_sv) - 1/2) 0)) := by
  have key : ∀ k : ℕ, k ≠ 0 → h_mins bt_value k rate_sv =
      -(1/2) * Real.logb 2 (guessing_probability
        (bt_adjusting bt_value ((2 : ℝ) ^ (-rate_sv) - 1/2) 0)) := by
    intro k hk
    have hk0 : (k : ℝ) ≠ 0 := Nat.cast_ne_zero.mpr hk
    rw [h_mins]
    field_simp
    ring
  exact ⟨(key n hn).trans (key m hm).symm, key n hn⟩

/-- Witness for C10: bit counts 1 and 2 at bt_value = 0, rate_sv = 1. -/
theorem h_mins_independent_of_num_bits_witness :
    h_mins 0 1 1 = h_mins 0 2 1 ∧
    h_mins 0 1 1 = -(1/2) * Real.logb 2 (guessing_probability
      (bt_adjusting 0 ((2 : ℝ) ^ (-(1 : ℝ)) - 1/2) 0)) :=
  h_mins_independent_of_num_bits 0 1 1 2 one_ne_zero two_ne_zero

/-! ## Helper lemmas for the BitCodec round trip -/

lemma shiftRight_three (n : ℕ) : n >>> 3 = n / 8 := by
  rw [Nat.shiftRight_eq_div_pow]

lemma and_seven (n : ℕ) : n &&& 7 = n % 8 := by
  have h2 := Nat.and_pow_two_sub_one_eq_mod n 3
  norm_num at h2
  exact h2

lemma getD_le_one (b : List ℕ) (hb : ∀ x ∈ b, x ≤ 1) (i : ℕ) :
    b.getD i 0 ≤ 1 := by
  by_cases h : i < b.length
  · rw [List.getD_eq_getElem _ _ h]
    exact hb _ (List.getElem_mem h)
  · rw [List.getD_eq_default _ _ (by omega)]
    omega

lemma or_shift (x c t : ℕ) (hx : x < 2 ^ t) (hc : c ≤ 1) :
    x ||| (c <<< t) = x + c * 2 ^ t := by
  interval_cases c
  · simp [Nat.zero_shiftLeft]
  · rw [Nat.one_shiftLeft, one_mul]
    apply Nat.eq_of_testBit_eq
    intro i
    rcases lt_trichotomy i t with hit | rfl | hti
    · rw [Nat.testBit_or, Nat.testBit_two_pow_of_ne (Nat.ne_of_gt hit),
        Nat.add_comm, Nat.testBit_two_pow_add_gt hit]
      simp
    · rw [Nat.testBit_or, Nat.testBit_two_pow_self, Nat.add_comm,
        Nat.testBit_two_pow_add_eq, Nat.testBit_lt_two_pow hx]
      simp
    · have h1 : x < 2 ^ i := lt_trans hx (Nat.pow_lt_pow_right one_lt_two hti)
      have h2 : x + 2 ^ t < 2 ^ i := by
        have h3 : x + 2 ^ t < 2 ^ (t + 1) := by
          rw [pow_succ]
          omega
        exact lt_of_lt_of_le h3 (Nat.pow_le_pow_right (by omega) hti)
      rw [Nat.testBit_or, Nat.testBit_two_pow_of_ne (Nat.ne_of_lt hti),
        Nat.testBit_lt_two_pow h1, Nat.testBit_lt_two_pow h2]
      simp

lemma bit_sum_lt (n : ℕ) (c : ℕ → ℕ) (hc : ∀ k, c k ≤ 1) :
    (Finset.range n).sum (fun k => c k * 2 ^ k) < 2 ^ n := by
  induction n with
  | zero => simp
  | succ n ih =>
    rw [Finset.sum_range_succ, pow_succ]
    have h1 : c n * 2 ^ n ≤ 2 ^ n := by
      calc c n * 2 ^ n ≤ 1 * 2 ^ n := Nat.mul_le_mul_right _ (hc n)
      _ = 2 ^ n := one_mul _
    omega

lemma bit_sum_trunc (n t : ℕ) (c : ℕ → ℕ) (h0 : ∀ k, t ≤ k → c k = 0)
    (htn : t ≤ n) :
    (Finset.range n).sum (fun k => c k * 2 ^ k) =
      (Finset.range t).sum (fun k => c k * 2 ^ k) :=
  (Finset.sum_subset (Finset.range_subset.mpr htn)
    (fun x _ hx => by
      rw [h0 x (by simpa using hx), zero_mul])).symm

lemma bit_sum_digit (n t : ℕ) (c : ℕ → ℕ) (hc : ∀ k, c k ≤ 1) (htn : t < n) :
    (Finset.range n).sum (fun k => c k * 2 ^ k) / 2 ^ t % 2 = c t := by
  induction t generalizing c n with
  | zero =>
    obtain ⟨m, rfl⟩ : ∃ m, n = m + 1 := ⟨n - 1, by omega⟩
    rw [Finset.sum_range_succ']
    have hstep : ∀ k, c (k + 1) * 2 ^ (k + 1) = c (k + 1) * 2 ^ k * 2 :=
      fun k => by rw [pow_succ]; ring
    rw [Finset.sum_congr rfl (fun k _ => hstep k), ← Finset.sum_mul]
    have h0 := hc 0
    simp only [pow_zero, Nat.div_one, mul_one]
    omega
  | succ t ih =>
    obtain ⟨m, rfl⟩ : ∃ m, n = m + 1 := ⟨n - 1, by omega⟩
    rw [Finset.sum_range_succ']
    have hstep : ∀ k, c (k + 1) * 2 ^ (k + 1) = 2 * (c (k + 1) * 2 ^ k) :=
      fun k => by rw [pow_succ]; ring
    rw [Finset.sum_congr rfl (fun k _ => hstep k), ← Finset.mul_sum]
    simp only [pow_zero, mul_one]
    have h0 := hc 0
    have hdiv : (2 * (Finset.range m).sum (fun k => c (k + 1) * 2 ^ k) + c 0) /
        2 ^ (t + 1) =
        (Finset.range m).sum (fun k => c (k + 1) * 2 ^ k) / 2 ^ t := by
      rw [pow_succ, mul_comm (2 ^ t) 2, ← Nat.div_div_eq_div_mul]
      congr 1
      omega
    rw [hdiv]
    exact ih m (fun k => c (k + 1)) (fun k => hc (k + 1)) (by omega)

lemma bitarray_fold_eq (b : List ℕ) (hb : ∀ x ∈ b, x ≤ 1) (m : ℕ)
    (hm : m ≤ b.length) :
    (List.range m).foldl
      (fun int_array i =>
        int_array.set (i >>> 3)
          (int_array.getD (i >>> 3) 0 ||| (b.getD i 0 <<< (i &&& 7))))
      (List.replicate ((b.length + 7) >>> 3) 0) =
    (List.range ((b.length + 7) >>> 3)).map (byteSpec b m) := by
  induction m with
  | zero =>
    simp only [List.range_zero, List.foldl_nil]
    have h0 : byteSpec b 0 = fun _ => 0 := by
      funext j
      simp [byteSpec]
    rw [h0, List.map_const', List.length_range]
  | succ m ih =>
    have hm' : m < b.length := by omega
    rw [List.range_succ, List.foldl_append, ih (by omega)]
    simp only [List.foldl_cons, List.foldl_nil]
    rw [shiftRight_three m, and_seven m]
    have hjN : m / 8 < (b.length + 7) >>> 3 := by
      rw [shiftRight_three]
      omega
    have hgetD : ((List.range ((b.length + 7) >>> 3)).map
        (byteSpec b m)).getD (m / 8) 0 = byteSpec b m (m / 8) := by
      rw [List.getD_eq_getElem _ _ (by simpa using hjN)]
      simp
    rw [hgetD]
    have hcle : ∀ k, (if 8 * (m / 8) + k < m
        then b.getD (8 * (m / 8) + k) 0 else 0) ≤ 1 := by
      intro k
      split_ifs
      · exact getD_le_one b hb _
      · omega
    have hlt : byteSpec b m (m / 8) < 2 ^ (m % 8) := by
      rw [byteSpec, bit_sum_trunc 8 (m % 8) _
        (fun k hk => by rw [if_neg (by omega)]) (by omega)]
      exact bit_sum_lt _ _ hcle
    rw [or_shift _ _ _ hlt (getD_le_one b hb m)]
    apply List.ext_getElem
    · simp
    · intro j hj1 hj2
      rw [List.getElem_set]
      simp only [List.getElem_map, List.getElem_range]
      have hj8 : j < (b.length + 7) >>> 3 := by
        simpa using hj2
      by_cases hj : m / 8 = j
      · rw [if_pos hj, ← hj]
        rw [byteSpec, byteSpec]
        have hmem : m % 8 ∈ Finset.range 8 := by
          simp only [Finset.mem_range]
          omega
        rw [← Finset.sum_erase_add _ _ hmem, ← Finset.sum_erase_add _ _ hmem]
        have herase : (Finset.sum ((Finset.range 8).erase (m % 8))
            (fun k => (if 8 * (m / 8) + k < m + 1
              then b.getD (8 * (m / 8) + k) 0 else 0) * 2 ^ k)) =
            (Finset.sum ((Finset.range 8).erase (m % 8))
            (fun k => (if 8 * (m / 8) + k < m
              then b.getD (8 * (m / 8) + k) 0 else 0) * 2 ^ k)) := by
          refine Finset.sum_congr rfl (fun k hk => ?_)
          have hk8 : k < 8 := Finset.mem_range.mp (Finset.mem_of_mem_erase hk)
          have hkne : k ≠ m % 8 := Finset.ne_of_mem_erase hk
          have hiff : (8 * (m / 8) + k < m + 1) ↔ (8 * (m / 8) + k < m) := by
            omega
          rw [if_congr hiff rfl rfl]
        rw [herase, if_neg (by omega), if_pos (by omega),
          show 8 * (m / 8) + m % 8 = m from by omega]
        ring
      · rw [if_neg hj]
        rw [byteSpec, byteSpec]
        refine Finset.sum_congr rfl (fun k hk => ?_)
        have hk8 : k < 8 := Finset.mem_range.mp hk
        have hiff : (8 * j + k < m) ↔ (8 * j + k < m + 1) := by
          omega
        rw [if_congr hiff rfl rfl]

/-- C8: for every bit vector b (entries 0 or 1), unpacking the packed byte
buffer recovers b: bytes_to_bitarray (bitarray_to_bytes b) (length of b)
equals b. -/
theorem bitcodec_roundtrip (b : List ℕ) (hb : ∀ x ∈ b, x ≤ 1) :
    bytes_to_bitarray (bitarray_to_bytes b) b.length = b := by
  have hbytes : bitarray_to_bytes b =
      (List.range ((b.length + 7) >>> 3)).map (byteSpec b b.length) :=
    bitarray_fold_eq b hb b.length le_rfl
  rw [bytes_to_bitarray, hbytes]
  apply List.ext_getElem
  · simp
  · intro i hi1 hi2
    simp only [List.getElem_map, List.getElem_range]
    have hib : i < b.length := by simpa using hi1
    rw [shiftRight_three i, and_seven i]
    have hiN : i / 8 < (b.length + 7) >>> 3 := by
      rw [shiftRight_three]
      omega
    have hgetD : ((List.range ((b.length + 7) >>> 3)).map
        (byteSpec b b.length)).getD (i / 8) 0 =
        byteSpec b b.length (i / 8) := by
      rw [List.getD_eq_getElem _ _ (by simpa using hiN)]
      simp
    rw [hgetD, Nat.shiftRight_eq_div_pow, Nat.and_one_is_mod, byteSpec]
    have hdig := bit_sum_digit 8 (i % 8)
      (fun k => if 8 * (i / 8) + k < b.length
        then b.getD (8 * (i / 8) + k) 0 else 0)
      (fun k => by
        show (if 8 * (i / 8) + k < b.length
          then b.getD (8 * (i / 8) + k) 0 else 0) ≤ 1
        split_ifs
        · exact getD_le_one b hb _
        · omega)
      (by omega)
    rw [hdig]
    show (if 8 * (i / 8) + i % 8 < b.length
      then b.getD (8 * (i / 8) + i % 8) 0 else 0) = b[i]
    rw [if_pos (by omega), show 8 * (i / 8) + i % 8 = i from by omega,
      List.getD_eq_getElem _ _ hib]

/-- Witness for C8: the spec example bit vector, which packs to 0x0D. -/
theorem bitcodec_roundtrip_witness :
    bytes_to_bitarray (bitarray_to_bytes [1,0,1,1,0,0,0,0]) 8 =
      [1,0,1,1,0,0,0,0] :=
  bitcodec_roundtrip [1,0,1,1,0,0,0,0] (by decide)

/-! ## Helper lemmas for the modulus search -/

lemma countP_range_le (m k : ℕ) :
    (List.range m).countP (fun s => decide (s ≤ k)) = min (k + 1) m := by
  induction m with
  | zero => simp
  | succ m ih =>
    rw [List.range_succ, List.countP_append, ih]
    simp only [List.countP_cons, List.countP_nil]
    by_cases h : m ≤ k <;> simp [h] <;> omega

lemma sqrt_lin_eq (n : ℕ) : sqrt_lin n = Nat.sqrt n := by
  rw [sqrt_lin]
  have hcong : (List.range (n + 1)).countP (fun s => decide (s * s ≤ n)) =
      (List.range (n + 1)).countP (fun s => decide (s ≤ Nat.sqrt n)) :=
    List.countP_congr (fun s _ => by simp [Nat.le_sqrt])
  rw [hcong, countP_range_le]
  have := Nat.sqrt_le_self n
  omega

lemma round_sqrt_eq (n : ℕ) : round_sqrt n =
    if n ≤ Nat.sqrt n * Nat.sqrt n + Nat.sqrt n then Nat.sqrt n
    else Nat.sqrt n + 1 := by
  rw [round_sqrt, sqrt_lin_eq]

lemma sqrt_le_round_sqrt (n : ℕ) : Nat.sqrt n ≤ round_sqrt n := by
  rw [round_sqrt_eq]
  split_ifs <;> omega

lemma round_sqrt_lt_self {n : ℕ} (h : 2 ≤ n) : round_sqrt n < n := by
  have h1 : Nat.sqrt n < n := Nat.sqrt_lt_self (by omega)
  have h2 : 0 < Nat.sqrt n := Nat.sqrt_pos.mpr (by omega)
  have h3 : Nat.sqrt n ≤ Nat.sqrt n * Nat.sqrt n :=
    Nat.le_mul_of_pos_left _ h2
  rw [round_sqrt_eq]
  split_ifs with hc <;> omega

lemma round_sqrt_mono {n m : ℕ} (h : n ≤ m) :
    round_sqrt n ≤ round_sqrt m := by
  have hst : Nat.sqrt n ≤ Nat.sqrt m := Nat.sqrt_le_sqrt h
  rcases Nat.lt_or_ge (Nat.sqrt n) (Nat.sqrt m) with hlt | hge
  · rw [round_sqrt_eq, round_sqrt_eq]
    split_ifs <;> omega
  · have heq : Nat.sqrt n = Nat.sqrt m := le_antisymm hst hge
    rw [round_sqrt_eq, round_sqrt_eq, heq]
    split_ifs <;> omega

lemma prime_check_iff {num : ℕ} (h2 : 2 ≤ num) :
    prime_check num = true ↔ num.Prime := by
  rw [prime_check, decide_eq_true_eq]
  constructor
  · intro h
    rw [Nat.prime_def_le_sqrt]
    refine ⟨h2, fun m hm2 hmle hdvd => ?_⟩
    have hmem : m ∈ Finset.Ico 2 (round_sqrt num + 1) := by
      rw [Finset.mem_Ico]
      have := sqrt_le_round_sqrt num
      exact ⟨hm2, by omega⟩
    exact h m hmem (Nat.mod_eq_zero_of_dvd hdvd)
  · intro hp i hi hmod
    rw [Finset.mem_Ico] at hi
    have hdvd : i ∣ num := Nat.dvd_of_mod_eq_zero hmod
    rcases hp.eq_one_or_self_of_dvd i hdvd with h1 | h1
    · omega
    · have := round_sqrt_lt_self h2
      omega

lemma pf_loop_eq : ∀ fuel num i : ℕ, 2 ≤ i → 1 ≤ num →
    (∀ d, 2 ≤ d → d < i → num % d ≠ 0) →
    num + round_sqrt num + 2 ≤ fuel + i →
    pf_loop fuel num i = Nat.primeFactorsList num := by
  intro fuel
  induction fuel with
  | zero =>
    intro num i hi hnum hinv hfuel
    rw [pf_loop]
    by_cases h1 : num = 1
    · subst h1
      simp [Nat.primeFactorsList_one]
    · exact (hinv num (by omega) (by omega) (Nat.mod_self num)).elim
  | succ fuel ih =>
    intro num i hi hnum hinv hfuel
    rw [pf_loop]
    split_ifs with hle hdvd h1
    · -- i divides num: emit i and continue with num / i
      have hdvd' : i ∣ num := Nat.dvd_of_mod_eq_zero hdvd
      have hile : i ≤ num := Nat.le_of_dvd (by omega) hdvd'
      have hminfac : num.minFac = i := by
        apply le_antisymm (Nat.minFac_le_of_dvd hi hdvd')
        by_contra hlt
        push_neg at hlt
        exact hinv num.minFac (Nat.minFac_prime (by omega)).two_le hlt
          (Nat.mod_eq_zero_of_dvd (Nat.minFac_dvd num))
      have heq : num.primeFactorsList =
          num.minFac :: (num / num.minFac).primeFactorsList := by
        obtain ⟨k, rfl⟩ : ∃ k, num = k + 2 := ⟨num - 2, by omega⟩
        exact Nat.primeFactorsList_add_two k
      rw [heq, hminfac]
      congr 1
      apply ih (num / i) i hi
      · have := Nat.div_pos hile (by omega)
        omega
      · intro d hd2 hdi hmod
        have hddvd : d ∣ num / i := Nat.dvd_of_mod_eq_zero hmod
        exact hinv d hd2 hdi
          (Nat.mod_eq_zero_of_dvd (hddvd.trans (Nat.div_dvd_of_dvd hdvd')))
      · have hdiv2 : num / i ≤ num / 2 := Nat.div_le_div_left hi (by omega)
        have hhalf : num / 2 ≤ num - 1 := by omega
        have hrs : round_sqrt (num / i) ≤ round_sqrt num :=
          round_sqrt_mono (Nat.div_le_self num i)
        omega
    · -- i does not divide num: advance i
      apply ih num (i + 1) (by omega) hnum
      · intro d hd2 hdlt hmod
        by_cases hdi : d = i
        · subst hdi
          exact hdvd hmod
        · exact hinv d hd2 (by omega) hmod
      · omega
    · -- loop exit with num above 1: num is prime
      have hnum2 : 2 ≤ num := by omega
      have hp : num.Prime := by
        rw [Nat.prime_def_le_sqrt]
        refine ⟨hnum2, fun m hm2 hmle hdvd => ?_⟩
        have hs := sqrt_le_round_sqrt num
        exact hinv m hm2 (by omega) (Nat.mod_eq_zero_of_dvd hdvd)
      rw [Nat.primeFactorsList_prime hp]
    · -- loop exit with num equal to 1
      push_neg at h1
      subst h1
      simp [Nat.primeFactorsList_one]

lemma prime_factors_list_eq {num : ℕ} (h : 1 ≤ num) :
    prime_factors_list num = Nat.primeFactorsList num := by
  rw [prime_factors_list]
  exact pf_loop_eq _ num 2 le_rfl h (fun d hd2 hdlt => by omega) (by omega)

lemma mem_run_cons_fst (a x : ℕ) (rl : List (ℕ × ℕ)) :
    a ∈ (run_cons x rl).map Prod.fst ↔ a = x ∨ a ∈ rl.map Prod.fst := by
  cases rl with
  | nil => simp [run_cons]
  | cons yc rest =>
    obtain ⟨y, c⟩ := yc
    rw [run_cons]
    by_cases hxy : x = y
    · rw [if_pos hxy]
      subst hxy
      simp only [List.map_cons, List.mem_cons]
      tauto
    · rw [if_neg hxy]
      simp only [List.map_cons, List.mem_cons]

lemma mem_run_lengths_fst (a : ℕ) : ∀ l : List ℕ,
    (a ∈ (run_lengths l).map Prod.fst ↔ a ∈ l) := by
  intro l
  induction l with
  | nil => simp [run_lengths]
  | cons x xs ih =>
    show a ∈ (run_cons x (run_lengths xs)).map Prod.fst ↔ a ∈ x :: xs
    rw [mem_run_cons_fst, ih, List.mem_cons]

lemma mem_prime_factors_grouped {m p : ℕ} (hm : 1 ≤ m) :
    p ∈ (prime_factors_grouped m).1 ↔ p ∈ m.primeFactors := by
  rw [prime_factors_grouped]
  rw [mem_run_lengths_fst, prime_factors_list_eq hm]
  simp [Nat.mem_primeFactors, Nat.mem_primeFactorsList']

lemma na_good_iff {m : ℕ} (hm : 1 ≤ m) :
    na_good m = true ↔
      (Nat.Prime (m + 1) ∧
        ∀ p ∈ m.primeFactors, 2 ^ (m / p) % (m + 1) ≠ 1) := by
  rw [na_good, Bool.and_eq_true, prime_check_iff (by omega),
    List.all_eq_true]
  refine and_congr_right (fun _ => ?_)
  constructor
  · intro h p hp
    have := h p ((mem_prime_factors_grouped hm).mpr hp)
    simpa using this
  · intro h p hp
    have := h p ((mem_prime_factors_grouped hm).mp hp)
    simpa using this

lemma na_good_two : na_good 2 = true := by decide

lemma na_loop_spec : ∀ fuel m : ℕ, 2 ≤ m → m % 2 = 0 → m / 2 ≤ fuel →
    ∃ r, na_loop fuel m = some r ∧ na_good r = true ∧ 2 ≤ r ∧ r ≤ m ∧
      r % 2 = 0 ∧ ∀ k, r < k → k ≤ m → k % 2 = 0 → na_good k = false := by
  intro fuel
  induction fuel with
  | zero =>
    intro m hm2 hme hfuel
    omega
  | succ fuel ih =>
    intro m hm2 hme hfuel
    rw [na_loop]
    by_cases hg : na_good m = true
    · rw [if_pos hg]
      exact ⟨m, rfl, hg, hm2, le_rfl, hme,
        fun k h1 h2 _ => ((Nat.lt_irrefl m) (h1.trans_le h2)).elim⟩
    · rw [if_neg hg]
      have hm4 : 4 ≤ m := by
        by_contra hlt
        push_neg at hlt
        have hm2' : m = 2 := by omega
        rw [hm2'] at hg
        exact hg na_good_two
      obtain ⟨r, hloop, hgood, hr2, hrle, hrme, hmax⟩ :=
        ih (m - 2) (by omega) (by omega) (by omega)
      refine ⟨r, hloop, hgood, hr2, by omega, hrme, fun k h1 h2 h3 => ?_⟩
      by_cases hk : k ≤ m - 2
      · exact hmax k h1 hk h3
      · have hkm : k = m := by omega
        rw [hkm]
        exact Bool.eq_false_iff.mpr hg

/-- C1: for num_bits at least 2, na_set returns the largest even m at most
num_bits such that m + 1 is prime and, for every distinct prime factor p of
m, 2 ^ (m / p) mod (m + 1) differs from 1; in particular the returned value
is even and the returned value plus 1 is prime. -/
theorem na_set_largest (num_bits : ℕ) (h : 2 ≤ num_bits) :
    ∃ m, na_set num_bits = some m ∧ m ≤ num_bits ∧ m % 2 = 0 ∧
      Nat.Prime (m + 1) ∧
      (∀ p ∈ m.primeFactors, 2 ^ (m / p) % (m + 1) ≠ 1) ∧
      ∀ k, m < k → k ≤ num_bits → k % 2 = 0 →
        ¬ (Nat.Prime (k + 1) ∧
            ∀ p ∈ k.primeFactors, 2 ^ (k / p) % (k + 1) ≠ 1) := by
  have hdef : na_set num_bits = na_loop
      ((if num_bits % 2 ≠ 0 then num_bits - 1 else num_bits) / 2 + 1)
      (if num_bits % 2 ≠ 0 then num_bits - 1 else num_bits) := rfl
  set n0 := if num_bits % 2 ≠ 0 then num_bits - 1 else num_bits with hn0
  have h1 : 2 ≤ n0 := by
    rw [hn0]
    split_ifs <;> omega
  have h2 : n0 % 2 = 0 := by
    rw [hn0]
    split_ifs with hc <;> omega
  have h3 : n0 ≤ num_bits := by
    rw [hn0]
    split_ifs <;> omega
  obtain ⟨r, hloop, hgood, hr2, hrle, hrme, hmax⟩ :=
    na_loop_spec (n0 / 2 + 1) n0 h1 h2 (by omega)
  have hprop := (na_good_iff (show 1 ≤ r by omega)).mp hgood
  refine ⟨r, by rw [hdef]; exact hloop, by omega, hrme, hprop.1, hprop.2, ?_⟩
  intro k hk1 hk2 hk3 hcontra
  have hkn0 : k ≤ n0 := by
    rw [hn0]
    split_ifs with hc <;> omega
  have hfalse := hmax k hk1 hkn0 hk3
  have htrue := (na_good_iff (show 1 ≤ k by omega)).mpr hcontra
  rw [hfalse] at htrue
  exact Bool.false_ne_true htrue

/-- Witness for C1: the theorem applied at the spec example num_bits = 10
(na_set 10 evaluates to some 10). -/
theorem na_set_largest_witness :
    ∃ m, na_set 10 = some m ∧ m ≤ 10 ∧ m % 2 = 0 ∧
      Nat.Prime (m + 1) ∧
      (∀ p ∈ m.primeFactors, 2 ^ (m / p) % (m + 1) ≠ 1) ∧
      ∀ k, m < k → k ≤ 10 → k % 2 = 0 →
        ¬ (Nat.Prime (k + 1) ∧
            ∀ p ∈ k.primeFactors, 2 ^ (k / p) % (k + 1) ≠ 1) :=
  na_set_largest 10 (by norm_num)

/-- C9: the decreasing search of na_set terminates for every input of at
least 2, reaching an even accepted value of at least 2 (the candidate 2,
with 2 + 1 = 3 prime, passes the acceptance test). -/
theorem na_set_terminates (num_bits : ℕ) (h : 2 ≤ num_bits) :
    ∃ m, na_set num_bits = some m ∧ 2 ≤ m ∧ m % 2 = 0 ∧
      na_good m = true := by
  have hdef : na_set num_bits = na_loop
      ((if num_bits % 2 ≠ 0 then num_bits - 1 else num_bits) / 2 + 1)
      (if num_bits % 2 ≠ 0 then num_bits - 1 else num_bits) := rfl
  set n0 := if num_bits % 2 ≠ 0 then num_bits - 1 else num_bits with hn0
  have h1 : 2 ≤ n0 := by
    rw [hn0]
    split_ifs <;> omega
  have h2 : n0 % 2 = 0 := by
    rw [hn0]
    split_ifs with hc <;> omega
  obtain ⟨r, hloop, hgood, hr2, hrle, hrme, hmax⟩ :=
    na_loop_spec (n0 / 2 + 1) n0 h1 h2 (by omega)
  exact ⟨r, by rw [hdef]; exact hloop, hr2, hrme, hgood⟩

/-- Witness for C9: termination at the concrete input 12. -/
theorem na_set_terminates_witness :
    ∃ m, na_set 12 = some m ∧ 2 ≤ m ∧ m % 2 = 0 ∧ na_good m = true :=
  na_set_terminates 12 (by norm_num)
